import Mathlib

/-!
Verification development for the `friends_bets` binary prediction-market
program (`src/packages/contracts/anchor/programs/friends_bets/src/lib.rs`).

The program's account data and instruction handlers are shallowly embedded:
unsigned 64-bit (`u64`) and 128-bit (`u128`) machine integers become `Nat`
with explicit width checks `< 2 ^ 64` / `< 2 ^ 128` at every checked
operation and an explicit `% 2 ^ 64` at every `as u64` narrowing; `i64`
timestamps become `Int`; fallible handlers return `Except`.
-/

namespace FriendsBets

/-- `2 ^ 64`, the number of values of a `u64`. -/
def U64 : Nat := 2 ^ 64

/-- `2 ^ 128`, the number of values of a `u128`. -/
def U128 : Nat := 2 ^ 128

/-- `const MAX_FEE_BPS: u16 = 2000` (lib.rs line 6). -/
def MAX_FEE_BPS : Nat := 2000

/-- `const MAX_TITLE_LEN: usize = 64` (lib.rs line 7). -/
def MAX_TITLE_LEN : Nat := 64

/-- `enum BetSide { A, B }` (lib.rs lines 549-553). -/
inductive BetSide
  | A
  | B
  deriving DecidableEq, Repr

/-- `enum MarketStatus { Open, PendingResolve, Resolved, Cancelled }`
(lib.rs lines 541-547). -/
inductive MarketStatus
  | Open
  | PendingResolve
  | Resolved
  | Cancelled
  deriving DecidableEq, Repr

/-- `enum ErrorCode` (lib.rs lines 604-646). -/
inductive ErrorCode
  | FeeTooHigh
  | TitleTooLong
  | EndTimeInPast
  | InvalidDeadline
  | MarketNotOpen
  | BettingClosed
  | InvalidAmount
  | Overflow
  | Underflow
  | BettingNotEnded
  | MarketNotPendingResolve
  | UnauthorizedResolver
  | ResolutionDeadlinePassed
  | ResolutionNotExpired
  | MarketNotFinalized
  | AlreadyClaimed
  | UnauthorizedClaim
  | MarketNotResolved
  | UnauthorizedWithdrawal
  | FeeAlreadyWithdrawn
  deriving DecidableEq, Repr

/-- The ways a handler invocation can fail: a program `ErrorCode`, a failure
of the external SPL-token `transfer` CPI, or a Rust panic (the `unwrap()` on
`market.outcome` in `claim`, lib.rs line 207). -/
inductive ProgramError
  | code (e : ErrorCode)
  | transferFailed
  | panicked
  deriving DecidableEq, Repr

/-- The `Market` account (lib.rs lines 487-503).  Pubkeys are modelled as
`Nat`; the PDA bump bytes are omitted as they carry no program logic. -/
structure Market where
  creator : Nat
  mint : Nat
  fee_bps : Nat
  end_ts : Int
  resolve_deadline_ts : Int
  staked_a : Nat
  staked_b : Nat
  status : MarketStatus
  outcome : Option BetSide
  creator_fee_withdrawn : Bool
  title : String
  deriving DecidableEq, Repr

/-- The `Position` account (lib.rs lines 523-530). -/
structure Position where
  owner : Nat
  side : BetSide
  amount : Nat
  claimed : Bool
  deriving DecidableEq, Repr

/-- Rust `u64::checked_add`: `none` exactly when the mathematical sum does
not fit in 64 bits. -/
def checkedAdd64 (a b : Nat) : Option Nat :=
  if a + b < U64 then some (a + b) else none

/-- Rust `u64::checked_sub`: `none` exactly on underflow. -/
def checkedSub64 (a b : Nat) : Option Nat :=
  if b ≤ a then some (a - b) else none

/-- Rust `u128::checked_mul`: `none` exactly when the product does not fit
in 128 bits. -/
def checkedMul128 (a b : Nat) : Option Nat :=
  if a * b < U128 then some (a * b) else none

/-- Rust `u128::checked_div`: `none` exactly on division by zero. -/
def checkedDiv128 (a b : Nat) : Option Nat :=
  if b = 0 then none else some (a / b)

/-- Modelled from the spec: the external token-ledger transfer primitive of
§6 (`token::transfer` CPI, which lives outside this repository).  Per the
spec it moves `amount` between balances and "fails atomically on
insufficient funds"; on success it returns the updated
`(source, destination)` balances. -/
def tokenTransfer (fromBal toBal amount : Nat) : Option (Nat × Nat) :=
  if amount ≤ fromBal then some (fromBal - amount, toBal + amount) else none

/-- `initialize_market` (lib.rs lines 13-56).  `now` is
`Clock::get()?.unix_timestamp`; on success it returns the freshly written
`Market` account. -/
def initialize_market (creator mint fee_bps : Nat)
    (end_ts resolve_deadline_ts : Int) (title : String) (now : Int) :
    Except ProgramError Market :=
  if ¬ fee_bps ≤ MAX_FEE_BPS then .error (.code .FeeTooHigh)
  else if ¬ title.utf8ByteSize ≤ MAX_TITLE_LEN then .error (.code .TitleTooLong)
  else if ¬ end_ts > now then .error (.code .EndTimeInPast)
  else if ¬ resolve_deadline_ts > end_ts then .error (.code .InvalidDeadline)
  else .ok
    { creator := creator
      mint := mint
      fee_bps := fee_bps
      end_ts := end_ts
      resolve_deadline_ts := resolve_deadline_ts
      staked_a := 0
      staked_b := 0
      status := .Open
      outcome := none
      creator_fee_withdrawn := false
      title := title }

/-- The accounts a single `place_bet` or `claim` invocation touches: the
market, the caller's position, the vault's token balance and the caller's
external token balance. -/
structure LocalState where
  market : Market
  position : Position
  vaultBal : Nat
  userBal : Nat
  deriving DecidableEq, Repr

/-- Helper for `place_bet`'s `match side` stake update (lib.rs lines
84-97): write the new total into the chosen side's aggregate. -/
def setStake (m : Market) (side : BetSide) (s : Nat) : Market :=
  match side with
  | .A => { m with staked_a := s }
  | .B => { m with staked_b := s }

/-- The side's current aggregate, read by `place_bet`'s stake update and by
`claim`'s `winning_side_total` (lib.rs lines 226-229). -/
def sideStake (m : Market) (side : BetSide) : Nat :=
  match side with
  | .A => m.staked_a
  | .B => m.staked_b

/-- The body of `place_bet` (lib.rs lines 58-117) executed step by step in
source order, returning the in-memory state as mutated so far together with
the error, if any: the token transfer happens before the two checked
additions, so an `Overflow` error leaves a state whose balances have
already moved. -/
def place_bet_raw (st : LocalState) (user : Nat) (side : BetSide)
    (amount : Nat) (now : Int) : LocalState × Option ProgramError :=
  if st.market.status ≠ .Open then (st, some (.code .MarketNotOpen))
  else if ¬ now < st.market.end_ts then (st, some (.code .BettingClosed))
  else if ¬ amount > 0 then (st, some (.code .InvalidAmount))
  else
    match tokenTransfer st.userBal st.vaultBal amount with
    | none => (st, some .transferFailed)
    | some (ub, vb) =>
      let st1 : LocalState := { st with userBal := ub, vaultBal := vb }
      match checkedAdd64 (sideStake st1.market side) amount with
      | none => (st1, some (.code .Overflow))
      | some s =>
        let st2 : LocalState := { st1 with market := setStake st1.market side s }
        let st3 : LocalState :=
          { st2 with position := { st2.position with owner := user, side := side } }
        match checkedAdd64 st3.position.amount amount with
        | none => (st3, some (.code .Overflow))
        | some pa =>
          ({ st3 with position := { st3.position with amount := pa, claimed := false } },
            none)

/-- `place_bet` as observed through the host runtime, which per spec §5
commits an instruction's writes only when it returns `Ok` and rolls back
every partial write on error: the committed result is either the fully
updated state or the error. -/
def place_bet (st : LocalState) (user : Nat) (side : BetSide) (amount : Nat)
    (now : Int) : Except ProgramError LocalState :=
  match place_bet_raw st user side amount now with
  | (st', none) => .ok st'
  | (_, some e) => .error e

/-- `close_betting` (lib.rs lines 119-138).  The `CloseBetting` accounts
context (lib.rs lines 406-410) contains only the market — no signer — so
the handler receives a `caller` it never reads. -/
def close_betting (caller : Nat) (m : Market) (now : Int) :
    Except ProgramError Market :=
  if m.status ≠ .Open then .error (.code .MarketNotOpen)
  else if ¬ now ≥ m.end_ts then .error (.code .BettingNotEnded)
  else .ok { m with status := .PendingResolve }

/-- `resolve` (lib.rs lines 140-165). -/
def resolve (caller : Nat) (m : Market) (outcome : BetSide) (now : Int) :
    Except ProgramError Market :=
  if m.status ≠ .PendingResolve then .error (.code .MarketNotPendingResolve)
  else if ¬ caller = m.creator then .error (.code .UnauthorizedResolver)
  else if ¬ now < m.resolve_deadline_ts then .error (.code .ResolutionDeadlinePassed)
  else .ok { m with status := .Resolved, outcome := some outcome }

/-- `cancel_expired` (lib.rs lines 167-186). -/
def cancel_expired (caller : Nat) (m : Market) (now : Int) :
    Except ProgramError Market :=
  if m.status ≠ .PendingResolve then .error (.code .MarketNotPendingResolve)
  else if ¬ now ≥ m.resolve_deadline_ts then .error (.code .ResolutionNotExpired)
  else .ok { m with status := .Cancelled }

/-- The guard-and-payout computation of `claim` (lib.rs lines 192-241): the
three `require!` guards followed by the settlement arithmetic.  Reading
`market.outcome` as `None` in the `Resolved` branch is the `unwrap()` panic
of line 207, surfaced as `ProgramError.panicked`.  Each `as u64` narrowing
is an explicit `% U64`. -/
def claim_payout (m : Market) (p : Position) (user : Nat) :
    Except ProgramError Nat :=
  if ¬ (m.status = .Resolved ∨ m.status = .Cancelled) then
    .error (.code .MarketNotFinalized)
  else if p.claimed then .error (.code .AlreadyClaimed)
  else if ¬ p.owner = user then .error (.code .UnauthorizedClaim)
  else if m.status = .Cancelled then .ok p.amount
  else
    match m.outcome with
    | none => .error .panicked
    | some outcome =>
      if p.side ≠ outcome then .ok 0
      else
        match checkedAdd64 m.staked_a m.staked_b with
        | none => .error (.code .Overflow)
        | some total_staked =>
          match checkedMul128 total_staked m.fee_bps with
          | none => .error (.code .Overflow)
          | some prod =>
            match checkedDiv128 prod 10000 with
            | none => .error (.code .Overflow)
            | some q =>
              let fee_amount := q % U64
              match checkedSub64 total_staked fee_amount with
              | none => .error (.code .Underflow)
              | some distributable =>
                let winning_side_total := sideStake m outcome
                if winning_side_total = 0 then .ok 0
                else
                  match checkedMul128 distributable p.amount with
                  | none => .error (.code .Overflow)
                  | some prod2 =>
                    match checkedDiv128 prod2 winning_side_total with
                    | none => .error (.code .Overflow)
                    | some q2 => .ok (q2 % U64)

/-- `claim` (lib.rs lines 188-275): compute the payout, transfer it from
the vault when positive, and mark the position claimed.  The market account
is taken immutably (`let market = &ctx.accounts.market`) and is never
written. -/
def claim (st : LocalState) (user : Nat) : Except ProgramError LocalState :=
  match claim_payout st.market st.position user with
  | .error e => .error e
  | .ok payout =>
    if payout > 0 then
      match tokenTransfer st.vaultBal st.userBal payout with
      | none => .error .transferFailed
      | some (vb, ub) =>
        .ok { st with vaultBal := vb, userBal := ub,
                      position := { st.position with claimed := true } }
    else
      .ok { st with position := { st.position with claimed := true } }

/-- Result of a successful `withdraw_creator_fee`: the updated market, the
vault's balance and the creator token account's balance. -/
structure WithdrawResult where
  market : Market
  vaultBal : Nat
  creatorBal : Nat
  deriving DecidableEq, Repr

/-- `withdraw_creator_fee` (lib.rs lines 277-335). -/
def withdraw_creator_fee (m : Market) (vaultBal creatorBal : Nat)
    (caller : Nat) : Except ProgramError WithdrawResult :=
  if ¬ m.status = .Resolved then .error (.code .MarketNotResolved)
  else if ¬ caller = m.creator then .error (.code .UnauthorizedWithdrawal)
  else if m.creator_fee_withdrawn then .error (.code .FeeAlreadyWithdrawn)
  else
    match checkedAdd64 m.staked_a m.staked_b with
    | none => .error (.code .Overflow)
    | some total_staked =>
      match checkedMul128 total_staked m.fee_bps with
      | none => .error (.code .Overflow)
      | some prod =>
        match checkedDiv128 prod 10000 with
        | none => .error (.code .Overflow)
        | some q =>
          let fee_amount := q % U64
          if fee_amount > 0 then
            match tokenTransfer vaultBal creatorBal fee_amount with
            | none => .error .transferFailed
            | some (vb, cb) =>
              .ok ⟨{ m with creator_fee_withdrawn := true }, vb, cb⟩
          else
            .ok ⟨{ m with creator_fee_withdrawn := true }, vaultBal, creatorBal⟩

/-- Global state of one market: the market account, every position account
(keyed by owner pubkey; an account not yet created reads as zeroed, which is
what Anchor's `init_if_needed` yields), the vault balance and every external
token balance. -/
structure World where
  market : Market
  positions : Nat → Position
  vaultBal : Nat
  balances : Nat → Nat

/-- An invocation of one of the seven instructions, with its caller and the
clock reading at execution. -/
inductive Op
  | placeBet (user : Nat) (side : BetSide) (amount : Nat) (now : Int)
  | closeBetting (caller : Nat) (now : Int)
  | resolveOp (caller : Nat) (outcome : BetSide) (now : Int)
  | cancelExpired (caller : Nat) (now : Int)
  | claimOp (user : Nat)
  | withdrawFee (caller : Nat)

/-- The accounts of `w` that a `place_bet`/`claim` by `user` touches. -/
def localStateOf (w : World) (user : Nat) : LocalState :=
  ⟨w.market, w.positions user, w.vaultBal, w.balances user⟩

/-- One committed instruction: on success the instruction's writes are
applied, on any error the transaction is rolled back and the state is
unchanged (spec §5: the host runtime guarantees no partial application).
`claim` takes the market account immutably, so it writes only the position
and the balances. -/
def applyOp (w : World) (op : Op) : World :=
  match op with
  | .placeBet user side amount now =>
    match place_bet (localStateOf w user) user side amount now with
    | .ok st =>
      { market := st.market
        positions := Function.update w.positions user st.position
        vaultBal := st.vaultBal
        balances := Function.update w.balances user st.userBal }
    | .error _ => w
  | .closeBetting caller now =>
    match close_betting caller w.market now with
    | .ok m => { w with market := m }
    | .error _ => w
  | .resolveOp caller outcome now =>
    match resolve caller w.market outcome now with
    | .ok m => { w with market := m }
    | .error _ => w
  | .cancelExpired caller now =>
    match cancel_expired caller w.market now with
    | .ok m => { w with market := m }
    | .error _ => w
  | .claimOp user =>
    match claim (localStateOf w user) user with
    | .ok st =>
      { w with
        positions := Function.update w.positions user st.position
        vaultBal := st.vaultBal
        balances := Function.update w.balances user st.userBal }
    | .error _ => w
  | .withdrawFee caller =>
    match withdraw_creator_fee w.market w.vaultBal (w.balances caller) caller with
    | .ok r =>
      { w with
        market := r.market
        vaultBal := r.vaultBal
        balances := Function.update w.balances caller r.creatorBal }
    | .error _ => w

/-- A sequence of committed instructions. -/
def applyOps (w : World) (ops : List Op) : World :=
  ops.foldl applyOp w

/-- A position account that has not been written yet (Anchor zero-initialises
fresh accounts; variant index 0 of `BetSide` is `A`). -/
def initPosition : Position := ⟨0, .A, 0, false⟩

/-- The states of one market reachable through the operation surface: a
fresh market created by a successful `initialize_market` (empty vault, no
positions, arbitrary external balances), followed by any committed
instructions. -/
inductive Reachable : World → Prop
  | init (creator mint fee_bps : Nat) (end_ts resolve_deadline_ts now : Int)
      (title : String) (m : Market) (balances : Nat → Nat)
      (h : initialize_market creator mint fee_bps end_ts resolve_deadline_ts
            title now = .ok m) :
      Reachable ⟨m, fun _ => initPosition, 0, balances⟩
  | step (w : World) (op : Op) (h : Reachable w) : Reachable (applyOp w op)

/-! ## Derived quantities of the settlement arithmetic -/

/-- `total_staked` of a market, as a mathematical number (the code's
`checked_add` succeeds exactly when this is `< U64`). -/
def totalStaked (m : Market) : Nat := m.staked_a + m.staked_b

/-- The fee of §4.4 step 2 as computed by both `claim` and
`withdraw_creator_fee`: `floor(total * fee_bps / 10000)`, narrowed
`as u64`. -/
def feeOf (m : Market) : Nat := totalStaked m * m.fee_bps / 10000 % U64

/-- The distributable pool `total - fee`. -/
def distributableOf (m : Market) : Nat := totalStaked m - feeOf m

/-- The payout `claim` computes for a fresh winning-side position of size
`a` on market `m` with outcome `o` (owner and caller fixed to `0`,
`claimed = false`); errors collapse to `0`. -/
def claim_payout_of (m : Market) (o : BetSide) (a : Nat) : Nat :=
  match claim_payout m ⟨0, o, a, false⟩ 0 with
  | .ok n => n
  | .error _ => 0

/-! ## Arithmetic facts about the fee and payout formulas -/

theorem feeOf_le_totalStaked (m : Market) (hfb : m.fee_bps ≤ 10000) :
    feeOf m ≤ totalStaked m := by
  have h1 : totalStaked m * m.fee_bps / 10000 ≤ totalStaked m := by
    calc totalStaked m * m.fee_bps / 10000
        ≤ totalStaked m * 10000 / 10000 :=
          Nat.div_le_div_right (Nat.mul_le_mul_left _ hfb)
      _ = totalStaked m := Nat.mul_div_cancel _ (by norm_num)
  exact le_trans (Nat.mod_le _ _) h1

theorem feeOf_eq_no_mod (m : Market) (hfb : m.fee_bps ≤ 10000)
    (htot : totalStaked m < U64) :
    feeOf m = totalStaked m * m.fee_bps / 10000 := by
  have h1 : totalStaked m * m.fee_bps / 10000 ≤ totalStaked m := by
    calc totalStaked m * m.fee_bps / 10000
        ≤ totalStaked m * 10000 / 10000 :=
          Nat.div_le_div_right (Nat.mul_le_mul_left _ hfb)
      _ = totalStaked m := Nat.mul_div_cancel _ (by norm_num)
  exact Nat.mod_eq_of_lt (lt_of_le_of_lt h1 htot)

/-- Nat division distributes sub-additively over sums. -/
theorem div_add_div_le_add_div (x y W : Nat) (hW : 0 < W) :
    x / W + y / W ≤ (x + y) / W := by
  rw [Nat.le_div_iff_mul_le hW]
  calc (x / W + y / W) * W = x / W * W + y / W * W := by ring
    _ ≤ x + y := Nat.add_le_add (Nat.div_mul_le_self x W) (Nat.div_mul_le_self y W)

theorem sum_map_div_le (d W : Nat) (hW : 0 < W) (l : List Nat) :
    (l.map (fun a => d * a / W)).sum ≤ d * l.sum / W := by
  induction l with
  | nil => simp
  | cons a t ih =>
    simp only [List.map_cons, List.sum_cons, List.sum_cons]
    calc d * a / W + (t.map (fun a => d * a / W)).sum
        ≤ d * a / W + d * t.sum / W := Nat.add_le_add_left ih _
      _ ≤ (d * a + d * t.sum) / W := div_add_div_le_add_div _ _ _ hW
      _ = d * (a + t.sum) / W := by rw [Nat.mul_add]

theorem sideStake_le_totalStaked (m : Market) (o : BetSide) :
    sideStake m o ≤ totalStaked m := by
  cases o <;> simp [sideStake, totalStaked]

/-- On a resolved market with nonzero winning pool, `claim`'s settlement of
a fresh winning-side position of size `a ≤ winning_total` is exactly
`floor(distributable * a / winning_total)` (and every checked operation on
the way succeeds). -/
theorem claim_payout_resolved_win (m : Market) (o : BetSide) (a : Nat)
    (hs : m.status = .Resolved) (ho : m.outcome = some o)
    (htot : totalStaked m < U64) (hfb : m.fee_bps ≤ 10000)
    (hW : sideStake m o ≠ 0) (ha : a ≤ sideStake m o) :
    claim_payout_of m o a = distributableOf m * a / sideStake m o := by
  have hWpos : 0 < sideStake m o := Nat.pos_of_ne_zero hW
  have hside_le : sideStake m o ≤ totalStaked m := sideStake_le_totalStaked m o
  have hfee_le : feeOf m ≤ totalStaked m := feeOf_le_totalStaked m hfb
  have hd_le : distributableOf m ≤ totalStaked m := Nat.sub_le _ _
  have hmul1 : totalStaked m * m.fee_bps < U128 := by
    calc totalStaked m * m.fee_bps
        ≤ totalStaked m * 10000 := Nat.mul_le_mul_left _ hfb
      _ < U64 * 10000 := (Nat.mul_lt_mul_right (by norm_num)).mpr htot
      _ < U128 := by norm_num [U64, U128]
  have hmul2 : distributableOf m * a < U128 := by
    calc distributableOf m * a
        ≤ totalStaked m * totalStaked m :=
          Nat.mul_le_mul hd_le (le_trans ha hside_le)
      _ < U64 * U64 := Nat.mul_lt_mul_of_lt_of_lt htot htot
      _ = U128 := by norm_num [U64, U128]
  have hq_le : distributableOf m * a / sideStake m o ≤ distributableOf m := by
    calc distributableOf m * a / sideStake m o
        ≤ distributableOf m * sideStake m o / sideStake m o :=
          Nat.div_le_div_right (Nat.mul_le_mul_left _ ha)
      _ = distributableOf m := Nat.mul_div_cancel _ hWpos
  have hq_lt : distributableOf m * a / sideStake m o < U64 :=
    lt_of_le_of_lt (le_trans hq_le hd_le) htot
  have htot' : m.staked_a + m.staked_b < U64 := htot
  have hmul1' : (m.staked_a + m.staked_b) * m.fee_bps < U128 := hmul1
  have hfee' : (m.staked_a + m.staked_b) * m.fee_bps / 10000 % U64
      ≤ m.staked_a + m.staked_b := hfee_le
  have hmul2' : (m.staked_a + m.staked_b
      - (m.staked_a + m.staked_b) * m.fee_bps / 10000 % U64) * a < U128 := hmul2
  have hq_lt' : (m.staked_a + m.staked_b
      - (m.staked_a + m.staked_b) * m.fee_bps / 10000 % U64) * a / sideStake m o
      < U64 := hq_lt
  unfold claim_payout_of claim_payout
  simp only [hs, ho, checkedAdd64, checkedMul128, checkedDiv128, checkedSub64]
  simp [htot', hmul1', hfee', hmul2', hW]
  exact Nat.mod_eq_of_lt hq_lt'

/-- C1: for every resolved market with a nonzero winning pool, the `claim`
payouts of any finite collection of winning-side positions whose amounts sum
to at most the winning pool add up to at most the distributable pool
`total - fee`; the remainder stays in the vault as dust. -/
theorem claim_payouts_sum_le_distributable (m : Market) (o : BetSide)
    (l : List Nat) (hs : m.status = .Resolved) (ho : m.outcome = some o)
    (htot : totalStaked m < U64) (hfb : m.fee_bps ≤ 10000)
    (hW : sideStake m o ≠ 0) (hsum : l.sum ≤ sideStake m o) :
    (l.map (claim_payout_of m o)).sum ≤ distributableOf m := by
  have hWpos : 0 < sideStake m o := Nat.pos_of_ne_zero hW
  have hmap : l.map (claim_payout_of m o)
      = l.map (fun a => distributableOf m * a / sideStake m o) := by
    apply List.map_congr_left
    intro a hal
    have ha : a ≤ sideStake m o :=
      le_trans (List.single_le_sum (fun x _ => Nat.zero_le x) a hal) hsum
    exact claim_payout_resolved_win m o a hs ho htot hfb hW ha
  rw [hmap]
  calc (l.map fun a => distributableOf m * a / sideStake m o).sum
      ≤ distributableOf m * l.sum / sideStake m o := sum_map_div_le _ _ hWpos l
    _ ≤ distributableOf m * sideStake m o / sideStake m o :=
        Nat.div_le_div_right (Nat.mul_le_mul_left _ hsum)
    _ = distributableOf m := Nat.mul_div_cancel _ hWpos

/-- The worked-example market of spec §8: `fee_bps = 1000`,
`staked_a = 600`, `staked_b = 400`. -/
def exMarket : Market :=
  { creator := 1, mint := 0, fee_bps := 1000, end_ts := 10,
    resolve_deadline_ts := 20, staked_a := 600, staked_b := 400,
    status := .Resolved, outcome := some .A,
    creator_fee_withdrawn := false, title := "" }

/-- The worked example resolved to `B` instead: each B-bettor receives
`floor(900 * amount / 400)`. -/
def exMarketB : Market := { exMarket with outcome := some .B }

/-- The sole A-bettor's position in the worked example. -/
def exPosition : Position := ⟨2, .A, 600, false⟩

/-- Witness for C1 at the spec §8 `outcome = B` example: B-positions of
100 and 300 receive `floor(900*100/400) + floor(900*300/400) ≤ 900`. -/
theorem claim_payouts_sum_le_distributable_witness :
    ([100, 300].map (claim_payout_of exMarketB .B)).sum
      ≤ distributableOf exMarketB :=
  claim_payouts_sum_le_distributable exMarketB .B [100, 300] rfl rfl
    (by decide) (by decide) (by decide) (by decide)

/-- C2: the spec §8 worked example, end to end: the sole A-bettor's claim
computes payout `floor(900*600/600) = 900`; `withdraw_creator_fee` moves the
fee `100` out of the `1000`-token vault; the subsequent claim moves `900`,
leaving a vault residual of exactly `0`. -/
theorem claim_worked_example :
    claim_payout exMarket exPosition 2 = .ok 900 ∧
    withdraw_creator_fee exMarket 1000 0 1 =
      .ok ⟨{ exMarket with creator_fee_withdrawn := true }, 900, 100⟩ ∧
    claim ⟨{ exMarket with creator_fee_withdrawn := true }, exPosition, 900, 0⟩ 2 =
      .ok ⟨{ exMarket with creator_fee_withdrawn := true },
           { exPosition with claimed := true }, 0, 900⟩ :=
  ⟨rfl, rfl, rfl⟩

/-! ## Atomicity of `place_bet` (C3) -/

/-- C3: `place_bet` is atomic.  Whenever the handler returns an error — the
guard errors, a failed transfer, or an `Overflow` from either checked
addition (which in the raw execution order happens after the token
transfer) — the committed world is unchanged: vault balance, bettor
balance, `staked_a`, `staked_b` and the position record all keep their old
values; the transfer and the two counter updates succeed or fail
together. -/
theorem place_bet_error_leaves_world_unchanged (w : World) (user : Nat)
    (side : BetSide) (amount : Nat) (now : Int) (e : ProgramError)
    (h : place_bet (localStateOf w user) user side amount now = .error e) :
    applyOp w (.placeBet user side amount now) = w := by
  simp only [applyOp, h]

/-- A market one bet away from overflowing `staked_a`. -/
def ovMarket : Market :=
  { creator := 1, mint := 0, fee_bps := 0, end_ts := 10,
    resolve_deadline_ts := 20, staked_a := 18446744073709551615,
    staked_b := 0, status := .Open, outcome := none,
    creator_fee_withdrawn := false, title := "" }

/-- World around `ovMarket`: empty vault, the bettor holds 5 tokens. -/
def ovWorld : World := ⟨ovMarket, fun _ => initPosition, 0, fun _ => 5⟩

/-- Witness for C3: a bet of 1 on side A overflows the `checked_add` on
`staked_a` — after the token transfer already ran — and the committed world
is exactly the original one. -/
theorem place_bet_error_leaves_world_unchanged_witness :
    place_bet (localStateOf ovWorld 7) 7 .A 1 0 = .error (.code .Overflow) ∧
    applyOp ovWorld (.placeBet 7 .A 1 0) = ovWorld :=
  ⟨rfl, place_bet_error_leaves_world_unchanged ovWorld 7 .A 1 0 _ rfl⟩

/-! ## Cancelled-market refunds (C8) -/

/-- C8: on a cancelled market, `claim` by the position's owner on an
unclaimed position settles exactly `position.amount` — a full refund,
independent of the position's side and of `fee_bps`. -/
theorem cancelled_claim_full_refund (m : Market) (p : Position) (u : Nat)
    (hs : m.status = .Cancelled) (hc : p.claimed = false) (ho : p.owner = u) :
    claim_payout m p u = .ok p.amount := by
  simp [claim_payout, hs, hc, ho]

/-- A cancelled market with a nonzero fee rate. -/
def cnMarket : Market :=
  { creator := 1, mint := 0, fee_bps := 2000, end_ts := 10,
    resolve_deadline_ts := 20, staked_a := 5, staked_b := 7,
    status := .Cancelled, outcome := none,
    creator_fee_withdrawn := false, title := "" }

/-- Witness for C8: a B-side position of 7 on the cancelled `cnMarket` is
refunded exactly 7 despite `fee_bps = 2000`. -/
theorem cancelled_claim_full_refund_witness :
    claim_payout cnMarket ⟨3, .B, 7, false⟩ 3 = .ok 7 :=
  cancelled_claim_full_refund cnMarket ⟨3, .B, 7, false⟩ 3 rfl rfl rfl

/-! ## Permissionless `close_betting` (C10) -/

/-- C10: `close_betting` is caller-independent.  Its accounts context
(lib.rs lines 406-410) has no signer and its body never reads a caller
identity, so any two callers invoking it on the same market at the same
timestamp get literally the same result — any party, not only the creator,
can close betting. -/
theorem close_betting_caller_independent (c₁ c₂ : Nat) (m : Market)
    (now : Int) : close_betting c₁ m now = close_betting c₂ m now := rfl

/-! ## Exactly-once settlement (C7) -/

/-- A successful `claim_payout` implies its three guards passed. -/
theorem claim_payout_ok_guards {m : Market} {p : Position} {u x : Nat}
    (h : claim_payout m p u = .ok x) :
    (m.status = .Resolved ∨ m.status = .Cancelled) ∧
    p.claimed = false ∧ p.owner = u := by
  unfold claim_payout at h
  by_cases h1 : m.status = .Resolved ∨ m.status = .Cancelled
  · by_cases h2 : p.claimed
    · rw [if_neg (not_not_intro h1), if_pos h2] at h
      exact Except.noConfusion h
    · by_cases h3 : p.owner = u
      · exact ⟨h1, by simpa using h2, h3⟩
      · rw [if_neg (not_not_intro h1), if_neg h2, if_pos h3] at h
        exact Except.noConfusion h
  · rw [if_pos h1] at h
    exact Except.noConfusion h

/-- A successful `claim` never writes the market, sets `claimed := true` on
the position, and stems from a successful payout computation. -/
theorem claim_ok_shape {st st' : LocalState} {u : Nat}
    (h : claim st u = .ok st') :
    st'.market = st.market ∧
    st'.position = { st.position with claimed := true } ∧
    ∃ payout, claim_payout st.market st.position u = .ok payout := by
  unfold claim at h
  cases hp : claim_payout st.market st.position u with
  | error e =>
    simp only [hp] at h
    exact Except.noConfusion h
  | ok payout =>
    simp only [hp] at h
    by_cases h0 : payout > 0
    · rw [if_pos h0] at h
      cases ht : tokenTransfer st.vaultBal st.userBal payout with
      | none => rw [ht] at h; exact Except.noConfusion h
      | some pr =>
        obtain ⟨vb, ub⟩ := pr
        rw [ht] at h
        injection h with h2
        subst h2
        exact ⟨rfl, rfl, payout, rfl⟩
    · rw [if_neg h0] at h
      injection h with h2
      subst h2
      exact ⟨rfl, rfl, payout, rfl⟩

/-- A `claim` that errors commits nothing: the world is unchanged. -/
theorem applyOp_claim_error (w : World) (u : Nat) (e : ProgramError)
    (h : claim (localStateOf w u) u = .error e) :
    applyOp w (.claimOp u) = w := by
  simp only [applyOp, h]

/-- C7: a successful `claim` sets `position.claimed` to `true` (whatever the
payout), and a second `claim` on the same position fails `AlreadyClaimed`,
transfers nothing and leaves the whole world — market, position and all
balances — unchanged. -/
theorem claim_sets_claimed_once_and_rejects_replay (w : World) (u : Nat)
    (st : LocalState) (h : claim (localStateOf w u) u = .ok st) :
    st.position.claimed = true ∧
    claim (localStateOf (applyOp w (.claimOp u)) u) u
      = .error (.code .AlreadyClaimed) ∧
    applyOp (applyOp w (.claimOp u)) (.claimOp u) = applyOp w (.claimOp u) := by
  obtain ⟨hm, hpos, payout, hp⟩ := claim_ok_shape h
  have hg := claim_payout_ok_guards hp
  have hclaimed : st.position.claimed = true := by rw [hpos]
  have hw' : applyOp w (.claimOp u) =
      { w with positions := Function.update w.positions u st.position,
               vaultBal := st.vaultBal,
               balances := Function.update w.balances u st.userBal } := by
    simp only [applyOp, h]
  have hlocal : localStateOf (applyOp w (.claimOp u)) u =
      ⟨w.market, st.position, st.vaultBal, st.userBal⟩ := by
    rw [hw']
    simp [localStateOf, Function.update_same]
  have hsecond : claim (⟨w.market, st.position, st.vaultBal, st.userBal⟩ :
      LocalState) u = .error (.code .AlreadyClaimed) := by
    have hguard1 : w.market.status = .Resolved ∨ w.market.status = .Cancelled :=
      hg.1
    simp [claim, claim_payout, hguard1, hclaimed]
  refine ⟨hclaimed, ?_, ?_⟩
  · rw [hlocal]; exact hsecond
  · exact applyOp_claim_error _ u _ (by rw [hlocal]; exact hsecond)

/-- A world around the cancelled `cnMarket` where user 3 holds an unclaimed
position of 7 and the vault holds 12. -/
def claimWorld : World := ⟨cnMarket, fun _ => ⟨3, .B, 7, false⟩, 12, fun _ => 0⟩

/-- Witness for C7: user 3's refund claim on `claimWorld` succeeds with the
position marked claimed, and the replayed claim fails `AlreadyClaimed`
leaving the world unchanged. -/
theorem claim_sets_claimed_once_and_rejects_replay_witness :
    claim (localStateOf claimWorld 3) 3
        = .ok ⟨cnMarket, ⟨3, .B, 7, true⟩, 5, 7⟩ ∧
    ((⟨cnMarket, ⟨3, .B, 7, true⟩, 5, 7⟩ : LocalState).position.claimed = true ∧
      claim (localStateOf (applyOp claimWorld (.claimOp 3)) 3) 3
        = .error (.code .AlreadyClaimed) ∧
      applyOp (applyOp claimWorld (.claimOp 3)) (.claimOp 3)
        = applyOp claimWorld (.claimOp 3)) :=
  ⟨rfl, claim_sets_claimed_once_and_rejects_replay claimWorld 3 _ rfl⟩

/-! ## Terminal states and source-state guards (C6) -/

theorem place_bet_not_open {st : LocalState} {u : Nat} {side : BetSide}
    {amount : Nat} {now : Int} (h : st.market.status ≠ .Open) :
    place_bet st u side amount now = .error (.code .MarketNotOpen) := by
  unfold place_bet place_bet_raw
  rw [if_pos h]

theorem close_betting_not_open {c : Nat} {m : Market} {now : Int}
    (h : m.status ≠ .Open) :
    close_betting c m now = .error (.code .MarketNotOpen) := by
  unfold close_betting
  rw [if_pos h]

theorem resolve_not_pending {c : Nat} {m : Market} {o : BetSide} {now : Int}
    (h : m.status ≠ .PendingResolve) :
    resolve c m o now = .error (.code .MarketNotPendingResolve) := by
  unfold resolve
  rw [if_pos h]

theorem cancel_expired_not_pending {c : Nat} {m : Market} {now : Int}
    (h : m.status ≠ .PendingResolve) :
    cancel_expired c m now = .error (.code .MarketNotPendingResolve) := by
  unfold cancel_expired
  rw [if_pos h]

/-- A successful `withdraw_creator_fee` writes exactly
`creator_fee_withdrawn := true` into the market. -/
theorem withdraw_ok_market {m : Market} {vb cb c : Nat} {r : WithdrawResult}
    (h : withdraw_creator_fee m vb cb c = .ok r) :
    r.market = { m with creator_fee_withdrawn := true } := by
  unfold withdraw_creator_fee at h
  by_cases h1 : m.status = .Resolved
  · by_cases h2 : c = m.creator
    · by_cases h3 : m.creator_fee_withdrawn
      · rw [if_neg (not_not_intro h1), if_neg (not_not_intro h2), if_pos h3] at h
        exact Except.noConfusion h
      · rw [if_neg (not_not_intro h1), if_neg (not_not_intro h2), if_neg h3] at h
        cases ha : checkedAdd64 m.staked_a m.staked_b with
        | none =>
          simp only [ha] at h
          exact Except.noConfusion h
        | some total =>
          simp only [ha] at h
          cases hm1 : checkedMul128 total m.fee_bps with
          | none =>
            simp only [hm1] at h
            exact Except.noConfusion h
          | some prod =>
            simp only [hm1] at h
            cases hd : checkedDiv128 prod 10000 with
            | none =>
              simp only [hd] at h
              exact Except.noConfusion h
            | some q =>
              simp only [hd] at h
              by_cases h0 : q % U64 > 0
              · rw [if_pos h0] at h
                cases ht : tokenTransfer vb cb (q % U64) with
                | none =>
                  simp only [ht] at h
                  exact Except.noConfusion h
                | some pr =>
                  obtain ⟨vb2, cb2⟩ := pr
                  simp only [ht] at h
                  injection h with h4
                  subst h4
                  rfl
              · rw [if_neg h0] at h
                injection h with h4
                subst h4
                rfl
    · rw [if_neg (not_not_intro h1), if_pos h2] at h
      exact Except.noConfusion h
  · rw [if_pos h1] at h
    exact Except.noConfusion h

/-- C6: `Resolved` and `Cancelled` are terminal — no operation changes the
status of a market in either state — and each transition operation rejects
(rather than no-ops) outside its required source state: `close_betting`
fails `MarketNotOpen` unless `Open`, while `resolve` and `cancel_expired`
fail `MarketNotPendingResolve` unless `PendingResolve`. -/
theorem terminal_states_and_guards (w : World) (op : Op) (c : Nat)
    (m : Market) (o : BetSide) (now : Int)
    (h : w.market.status = .Resolved ∨ w.market.status = .Cancelled) :
    (applyOp w op).market.status = w.market.status ∧
    (m.status ≠ .Open → close_betting c m now = .error (.code .MarketNotOpen)) ∧
    (m.status ≠ .PendingResolve →
      resolve c m o now = .error (.code .MarketNotPendingResolve)) ∧
    (m.status ≠ .PendingResolve →
      cancel_expired c m now = .error (.code .MarketNotPendingResolve)) := by
  refine ⟨?_, fun hm => close_betting_not_open hm,
    fun hm => resolve_not_pending hm, fun hm => cancel_expired_not_pending hm⟩
  have hnotOpen : w.market.status ≠ .Open := by
    rcases h with h | h <;> simp [h]
  have hnotPending : w.market.status ≠ .PendingResolve := by
    rcases h with h | h <;> simp [h]
  cases op with
  | placeBet u side amount now' =>
    have he : place_bet (localStateOf w u) u side amount now'
        = .error (.code .MarketNotOpen) := place_bet_not_open hnotOpen
    simp only [applyOp, he]
  | closeBetting c' now' =>
    have he := @close_betting_not_open c' w.market now' hnotOpen
    simp only [applyOp, he]
  | resolveOp c' o' now' =>
    have he := @resolve_not_pending c' w.market o' now' hnotPending
    simp only [applyOp, he]
  | cancelExpired c' now' =>
    have he := @cancel_expired_not_pending c' w.market now' hnotPending
    simp only [applyOp, he]
  | claimOp u =>
    simp only [applyOp]
    cases hc : claim (localStateOf w u) u <;> rfl
  | withdrawFee c' =>
    simp only [applyOp]
    cases hr : withdraw_creator_fee w.market w.vaultBal (w.balances c') c' with
    | ok r =>
      have hrm := withdraw_ok_market hr
      simp [hrm]
    | error e => rfl

/-- A world whose market is the cancelled `cnMarket`. -/
def termWorld : World := ⟨cnMarket, fun _ => initPosition, 12, fun _ => 0⟩

/-- Witness for C6 at the cancelled `cnMarket`: a late `close_betting`
leaves the status untouched, and the three guard rejections hold for this
market. -/
theorem terminal_states_and_guards_witness :
    (termWorld.market.status = .Resolved ∨
      termWorld.market.status = .Cancelled) ∧
    ((applyOp termWorld (.closeBetting 9 99)).market.status
        = termWorld.market.status ∧
      (cnMarket.status ≠ .Open →
        close_betting 9 cnMarket 99 = .error (.code .MarketNotOpen)) ∧
      (cnMarket.status ≠ .PendingResolve →
        resolve 9 cnMarket .A 99 = .error (.code .MarketNotPendingResolve)) ∧
      (cnMarket.status ≠ .PendingResolve →
        cancel_expired 9 cnMarket 99
          = .error (.code .MarketNotPendingResolve))) :=
  ⟨Or.inr rfl,
    terminal_states_and_guards termWorld (.closeBetting 9 99) 9 cnMarket .A 99
      (Or.inr rfl)⟩

/-! ## The outcome/status invariant (C4) and panic-freedom of `claim` (C9) -/

/-- A successful `initialize_market` writes `status = Open` and
`outcome = None`. -/
theorem initialize_ok_shape {creator mint fee_bps : Nat}
    {end_ts resolve_deadline_ts now : Int} {title : String} {m : Market}
    (h : initialize_market creator mint fee_bps end_ts resolve_deadline_ts
      title now = .ok m) :
    m.status = .Open ∧ m.outcome = none := by
  unfold initialize_market at h
  by_cases h1 : ¬ fee_bps ≤ MAX_FEE_BPS
  · rw [if_pos h1] at h; exact Except.noConfusion h
  · rw [if_neg h1] at h
    by_cases h2 : ¬ title.utf8ByteSize ≤ MAX_TITLE_LEN
    · rw [if_pos h2] at h; exact Except.noConfusion h
    · rw [if_neg h2] at h
      by_cases h3 : ¬ end_ts > now
      · rw [if_pos h3] at h; exact Except.noConfusion h
      · rw [if_neg h3] at h
        by_cases h4 : ¬ resolve_deadline_ts > end_ts
        · rw [if_pos h4] at h; exact Except.noConfusion h
        · rw [if_neg h4] at h
          injection h with h5
          subst h5
          exact ⟨rfl, rfl⟩

/-- A successful `place_bet` changes neither `status` nor `outcome`. -/
theorem place_bet_ok_market {st st' : LocalState} {u : Nat} {side : BetSide}
    {amount : Nat} {now : Int} (h : place_bet st u side amount now = .ok st') :
    st'.market.status = st.market.status ∧
    st'.market.outcome = st.market.outcome := by
  unfold place_bet place_bet_raw at h
  by_cases h1 : st.market.status ≠ .Open
  · rw [if_pos h1] at h; exact Except.noConfusion h
  · rw [if_neg h1] at h
    by_cases h2 : ¬ now < st.market.end_ts
    · rw [if_pos h2] at h; exact Except.noConfusion h
    · rw [if_neg h2] at h
      by_cases h3 : ¬ amount > 0
      · rw [if_pos h3] at h; exact Except.noConfusion h
      · rw [if_neg h3] at h
        cases ht : tokenTransfer st.userBal st.vaultBal amount with
        | none =>
          simp only [ht] at h
          exact Except.noConfusion h
        | some pr =>
          obtain ⟨ub, vb⟩ := pr
          simp only [ht] at h
          cases ha1 : checkedAdd64 (sideStake st.market side) amount with
          | none =>
            simp only [ha1] at h
            exact Except.noConfusion h
          | some s1 =>
            simp only [ha1] at h
            cases ha2 : checkedAdd64 st.position.amount amount with
            | none =>
              simp only [ha2] at h
              exact Except.noConfusion h
            | some pa =>
              simp only [ha2] at h
              injection h with h4
              subst h4
              cases side <;> exact ⟨rfl, rfl⟩

/-- A successful `close_betting` moves an `Open` market to
`PendingResolve` and touches nothing else. -/
theorem close_betting_ok {c : Nat} {m m' : Market} {now : Int}
    (h : close_betting c m now = .ok m') :
    m' = { m with status := .PendingResolve } ∧ m.status = .Open := by
  unfold close_betting at h
  by_cases h1 : m.status ≠ .Open
  · rw [if_pos h1] at h; exact Except.noConfusion h
  · rw [if_neg h1] at h
    by_cases h2 : ¬ now ≥ m.end_ts
    · rw [if_pos h2] at h; exact Except.noConfusion h
    · rw [if_neg h2] at h
      injection h with h3
      subst h3
      exact ⟨rfl, not_not.mp h1⟩

/-- A successful `resolve` writes `status = Resolved` and
`outcome = Some o` together, from a `PendingResolve` market. -/
theorem resolve_ok {c : Nat} {m m' : Market} {o : BetSide} {now : Int}
    (h : resolve c m o now = .ok m') :
    m' = { m with status := .Resolved, outcome := some o } ∧
    m.status = .PendingResolve := by
  unfold resolve at h
  by_cases h1 : m.status ≠ .PendingResolve
  · rw [if_pos h1] at h; exact Except.noConfusion h
  · rw [if_neg h1] at h
    by_cases h2 : ¬ c = m.creator
    · rw [if_pos h2] at h; exact Except.noConfusion h
    · rw [if_neg h2] at h
      by_cases h3 : ¬ now < m.resolve_deadline_ts
      · rw [if_pos h3] at h; exact Except.noConfusion h
      · rw [if_neg h3] at h
        injection h with h4
        subst h4
        exact ⟨rfl, not_not.mp h1⟩

/-- A successful `cancel_expired` moves a `PendingResolve` market to
`Cancelled` and touches nothing else. -/
theorem cancel_expired_ok {c : Nat} {m m' : Market} {now : Int}
    (h : cancel_expired c m now = .ok m') :
    m' = { m with status := .Cancelled } ∧ m.status = .PendingResolve := by
  unfold cancel_expired at h
  by_cases h1 : m.status ≠ .PendingResolve
  · rw [if_pos h1] at h; exact Except.noConfusion h
  · rw [if_neg h1] at h
    by_cases h2 : ¬ now ≥ m.resolve_deadline_ts
    · rw [if_pos h2] at h; exact Except.noConfusion h
    · rw [if_neg h2] at h
      injection h with h3
      subst h3
      exact ⟨rfl, not_not.mp h1⟩

/-- `claim` never writes the market account. -/
theorem applyOp_claim_market (w : World) (u : Nat) :
    (applyOp w (.claimOp u)).market = w.market := by
  simp only [applyOp]
  cases claim (localStateOf w u) u <;> rfl

/-- The §3 market invariant: `outcome` is present iff the market is
`Resolved`. -/
def outcomeIffResolved (m : Market) : Prop :=
  m.outcome.isSome = true ↔ m.status = .Resolved

/-- Every committed operation preserves the outcome/status invariant. -/
theorem outcomeIffResolved_step (w : World) (op : Op)
    (h : outcomeIffResolved w.market) :
    outcomeIffResolved (applyOp w op).market := by
  cases op with
  | placeBet u side amount now =>
    cases hc : place_bet (localStateOf w u) u side amount now with
    | ok st' =>
      have hm := place_bet_ok_market hc
      simp only [applyOp, hc]
      unfold outcomeIffResolved at *
      rw [hm.1, hm.2]
      exact h
    | error e =>
      simp only [applyOp, hc]
      exact h
  | closeBetting c now =>
    cases hc : close_betting c w.market now with
    | ok m' =>
      obtain ⟨hm', hopen⟩ := close_betting_ok hc
      have hnone : w.market.outcome.isSome = false := by
        by_cases hs : w.market.outcome.isSome = true
        · rw [h.mp hs] at hopen
          exact absurd hopen (by simp)
        · simpa using hs
      simp only [applyOp, hc]
      unfold outcomeIffResolved
      rw [hm']
      simp [hnone]
    | error e =>
      simp only [applyOp, hc]
      exact h
  | resolveOp c o now =>
    cases hc : resolve c w.market o now with
    | ok m' =>
      obtain ⟨hm', _⟩ := resolve_ok hc
      simp only [applyOp, hc]
      unfold outcomeIffResolved
      rw [hm']
      simp
    | error e =>
      simp only [applyOp, hc]
      exact h
  | cancelExpired c now =>
    cases hc : cancel_expired c w.market now with
    | ok m' =>
      obtain ⟨hm', hpend⟩ := cancel_expired_ok hc
      have hnone : w.market.outcome.isSome = false := by
        by_cases hs : w.market.outcome.isSome = true
        · rw [h.mp hs] at hpend
          exact absurd hpend (by simp)
        · simpa using hs
      simp only [applyOp, hc]
      unfold outcomeIffResolved
      rw [hm']
      simp [hnone]
    | error e =>
      simp only [applyOp, hc]
      exact h
  | claimOp u =>
    unfold outcomeIffResolved
    rw [applyOp_claim_market]
    exact h
  | withdrawFee c =>
    cases hc : withdraw_creator_fee w.market w.vaultBal (w.balances c) c with
    | ok r =>
      have hm := withdraw_ok_market hc
      simp only [applyOp, hc]
      unfold outcomeIffResolved
      rw [hm]
      exact h
    | error e =>
      simp only [applyOp, hc]
      exact h

/-- In every reachable state the outcome/status invariant holds. -/
theorem reachable_outcomeIffResolved {w : World} (h : Reachable w) :
    outcomeIffResolved w.market := by
  induction h with
  | init creator mint fee_bps end_ts resolve_deadline_ts now title m bal hinit =>
    obtain ⟨hs, ho⟩ := initialize_ok_shape hinit
    unfold outcomeIffResolved
    rw [hs, ho]
    simp
  | step w op hw ih => exact outcomeIffResolved_step w op ih

/-- C4: in every market state reachable from `initialize_market` through
any sequence of the seven operations, `market.outcome` is `Some` exactly
when `market.status` is `Resolved`: initialization writes `Open`/`None`,
`resolve` writes `Resolved`/`Some` together, and no other operation touches
`outcome`. -/
theorem reachable_outcome_iff_resolved (w : World) (hw : Reachable w) :
    w.market.outcome.isSome = true ↔ w.market.status = .Resolved :=
  reachable_outcomeIffResolved hw

/-- The market a successful `initialize_market` with
`fee_bps = 100, end_ts = 10, resolve_deadline_ts = 20` at `now = 0`
produces. -/
def initMarket : Market :=
  { creator := 1, mint := 0, fee_bps := 100, end_ts := 10,
    resolve_deadline_ts := 20, staked_a := 0, staked_b := 0,
    status := .Open, outcome := none, creator_fee_withdrawn := false,
    title := "" }

/-- The world right after that initialization. -/
def initWorld0 : World := ⟨initMarket, fun _ => initPosition, 0, fun _ => 0⟩

/-- Witness for C4 at the freshly initialized market. -/
theorem reachable_outcome_iff_resolved_witness :
    initWorld0.market.outcome.isSome = true ↔
      initWorld0.market.status = .Resolved :=
  reachable_outcome_iff_resolved initWorld0
    (Reachable.init 1 0 100 10 20 0 "" initMarket (fun _ => 0) rfl)

/-- `claim_payout` hits the `unwrap()` panic only when the market is
`Resolved` while `outcome` is `None`. -/
theorem claim_payout_panicked_shape {m : Market} {p : Position} {u : Nat}
    (h : claim_payout m p u = .error .panicked) :
    m.status = .Resolved ∧ m.outcome = none := by
  unfold claim_payout at h
  by_cases h1 : m.status = .Resolved ∨ m.status = .Cancelled
  · by_cases h2 : p.claimed
    · rw [if_neg (not_not_intro h1), if_pos h2] at h
      injection h with h6
      exact ProgramError.noConfusion h6
    · by_cases h3 : p.owner = u
      · rw [if_neg (not_not_intro h1), if_neg h2, if_neg (not_not_intro h3)] at h
        by_cases h4 : m.status = .Cancelled
        · rw [if_pos h4] at h
          exact Except.noConfusion h
        · rw [if_neg h4] at h
          have hres : m.status = .Resolved := h1.elim id fun hc => absurd hc h4
          cases ho : m.outcome with
          | none => exact ⟨hres, rfl⟩
          | some o =>
            simp only [ho] at h
            by_cases h5 : p.side ≠ o
            · rw [if_pos h5] at h
              exact Except.noConfusion h
            · rw [if_neg h5] at h
              cases ha : checkedAdd64 m.staked_a m.staked_b with
              | none =>
                simp only [ha] at h
                injection h with h6
                exact ProgramError.noConfusion h6
              | some total =>
                simp only [ha] at h
                cases hm1 : checkedMul128 total m.fee_bps with
                | none =>
                  simp only [hm1] at h
                  injection h with h6
                  exact ProgramError.noConfusion h6
                | some prod =>
                  simp only [hm1] at h
                  cases hd : checkedDiv128 prod 10000 with
                  | none =>
                    simp only [hd] at h
                    injection h with h6
                    exact ProgramError.noConfusion h6
                  | some q =>
                    simp only [hd] at h
                    cases hs2 : checkedSub64 total (q % U64) with
                    | none =>
                      simp only [hs2] at h
                      injection h with h6
                      exact ProgramError.noConfusion h6
                    | some dist =>
                      simp only [hs2] at h
                      by_cases h7 : sideStake m o = 0
                      · rw [if_pos h7] at h
                        exact Except.noConfusion h
                      · rw [if_neg h7] at h
                        cases hm2 : checkedMul128 dist p.amount with
                        | none =>
                          simp only [hm2] at h
                          injection h with h6
                          exact ProgramError.noConfusion h6
                        | some prod2 =>
                          simp only [hm2] at h
                          cases hd2 : checkedDiv128 prod2 (sideStake m o) with
                          | none =>
                            simp only [hd2] at h
                            injection h with h6
                            exact ProgramError.noConfusion h6
                          | some q2 =>
                            simp only [hd2] at h
                            exact Except.noConfusion h
      · rw [if_neg (not_not_intro h1), if_neg h2, if_pos h3] at h
        injection h with h6
        exact ProgramError.noConfusion h6
  · rw [if_pos h1] at h
    injection h with h6
    exact ProgramError.noConfusion h6

/-- `claim` cannot panic when a `Resolved` market always carries an
outcome. -/
theorem claim_ne_panicked {st : LocalState} {u : Nat}
    (hinv : st.market.status = .Resolved → st.market.outcome ≠ none) :
    claim st u ≠ .error .panicked := by
  unfold claim
  cases hp : claim_payout st.market st.position u with
  | error e =>
    intro h
    injection h with h2
    subst h2
    obtain ⟨hres, hnone⟩ := claim_payout_panicked_shape hp
    exact hinv hres hnone
  | ok payout =>
    dsimp only
    by_cases h0 : payout > 0
    · rw [if_pos h0]
      cases ht : tokenTransfer st.vaultBal st.userBal payout with
      | none => simp
      | some pr =>
        obtain ⟨vb, ub⟩ := pr
        simp
    · rw [if_neg h0]
      simp

/-- C9: the `market.outcome.unwrap()` inside `claim`'s `Resolved` branch
never panics: in every state reachable through the operation surface, a
`Resolved` market carries `Some` outcome, so `claim` never returns the
`panicked` outcome for any caller. -/
theorem claim_unwrap_never_panics (w : World) (u : Nat) (hw : Reachable w) :
    claim (localStateOf w u) u ≠ .error .panicked := by
  have hinv := reachable_outcomeIffResolved hw
  apply claim_ne_panicked
  intro hres hnone
  have hnone' : w.market.outcome = none := hnone
  have hsome : w.market.outcome.isSome = true := hinv.mpr hres
  rw [hnone'] at hsome
  simp at hsome

/-- Witness for C9 at the freshly initialized market. -/
theorem claim_unwrap_never_panics_witness :
    claim (localStateOf initWorld0 5) 5 ≠ .error .panicked :=
  claim_unwrap_never_panics initWorld0 5
    (Reachable.init 1 0 100 10 20 0 "" initMarket (fun _ => 0) rfl)

/-! ## Order-independence of the creator fee (C5) -/

/-- `claim_payout` never reads `creator_fee_withdrawn`. -/
theorem claim_payout_cfw (m : Market) (b : Bool) (p : Position) (u : Nat) :
    claim_payout { m with creator_fee_withdrawn := b } p u
      = claim_payout m p u := rfl

/-- Forward evaluation of `withdraw_creator_fee` when every guard passes
and the vault can cover the fee.  The `fee_amount = 0` and `fee_amount > 0`
branches collapse into one shape. -/
theorem withdraw_ok_of (m : Market) (vb cb : Nat)
    (hres : m.status = .Resolved) (hwd : m.creator_fee_withdrawn = false)
    (htot : totalStaked m < U64) (hfb : m.fee_bps ≤ 10000)
    (hvb : feeOf m ≤ vb) :
    withdraw_creator_fee m vb cb m.creator =
      .ok ⟨{ m with creator_fee_withdrawn := true },
            vb - feeOf m, cb + feeOf m⟩ := by
  have hwd' : ¬ m.creator_fee_withdrawn = true := by rw [hwd]; simp
  have htot' : m.staked_a + m.staked_b < U64 := htot
  have hmul1 : (m.staked_a + m.staked_b) * m.fee_bps < U128 := by
    calc (m.staked_a + m.staked_b) * m.fee_bps
        ≤ (m.staked_a + m.staked_b) * 10000 := Nat.mul_le_mul_left _ hfb
      _ < U64 * 10000 := (Nat.mul_lt_mul_right (by norm_num)).mpr htot'
      _ < U128 := by norm_num [U64, U128]
  have hvb' : (m.staked_a + m.staked_b) * m.fee_bps / 10000 % U64 ≤ vb := hvb
  unfold withdraw_creator_fee
  rw [if_neg (not_not_intro hres),
    if_neg (not_not_intro (rfl : m.creator = m.creator)), if_neg hwd']
  simp only [checkedAdd64, checkedMul128, checkedDiv128, if_pos htot',
    if_pos hmul1, if_neg (show ¬ (10000 : Nat) = 0 by norm_num)]
  by_cases hf0 : (m.staked_a + m.staked_b) * m.fee_bps / 10000 % U64 > 0
  · rw [if_pos hf0]
    unfold tokenTransfer
    rw [if_pos hvb']
    rfl
  · rw [if_neg hf0]
    have hz : feeOf m = 0 := Nat.eq_zero_of_not_pos hf0
    rw [hz]
    simp

/-- Forward evaluation of `claim`: payout computation failed. -/
theorem claim_error_of {st0 : LocalState} {u : Nat} {e : ProgramError}
    (hp : claim_payout st0.market st0.position u = .error e) :
    claim st0 u = .error e := by
  unfold claim
  simp only [hp]

/-- Forward evaluation of `claim`: zero payout, no transfer. -/
theorem claim_ok_zero {st0 : LocalState} {u : Nat}
    (hp : claim_payout st0.market st0.position u = .ok 0) :
    claim st0 u =
      .ok { st0 with position := { st0.position with claimed := true } } := by
  unfold claim
  simp only [hp]
  simp

/-- Forward evaluation of `claim`: positive payout covered by the vault. -/
theorem claim_ok_pos {st0 : LocalState} {u payout : Nat}
    (hp : claim_payout st0.market st0.position u = .ok payout)
    (h0 : 0 < payout) (hle : payout ≤ st0.vaultBal) :
    claim st0 u =
      .ok { st0 with vaultBal := st0.vaultBal - payout,
                     userBal := st0.userBal + payout,
                     position := { st0.position with claimed := true } } := by
  unfold claim tokenTransfer
  simp only [hp]
  rw [if_pos h0, if_pos hle]

/-- Forward evaluation of `claim`: positive payout, insufficient vault. -/
theorem claim_transfer_fail {st0 : LocalState} {u payout : Nat}
    (hp : claim_payout st0.market st0.position u = .ok payout)
    (h0 : 0 < payout) (hgt : st0.vaultBal < payout) :
    claim st0 u = .error .transferFailed := by
  unfold claim tokenTransfer
  simp only [hp]
  rw [if_pos h0, if_neg (by omega : ¬ payout ≤ st0.vaultBal)]

/-- Inversion of a successful `claim`. -/
theorem claim_ok_elim {st0 st' : LocalState} {u : Nat}
    (h : claim st0 u = .ok st') :
    ∃ payout, claim_payout st0.market st0.position u = .ok payout ∧
      ((payout = 0 ∧
        st' = { st0 with position := { st0.position with claimed := true } }) ∨
       (0 < payout ∧ payout ≤ st0.vaultBal ∧
        st' = { st0 with vaultBal := st0.vaultBal - payout,
                         userBal := st0.userBal + payout,
                         position := { st0.position with claimed := true } })) := by
  unfold claim at h
  cases hp : claim_payout st0.market st0.position u with
  | error e =>
    simp only [hp] at h
    exact Except.noConfusion h
  | ok payout =>
    simp only [hp] at h
    refine ⟨payout, rfl, ?_⟩
    by_cases h0 : payout > 0
    · rw [if_pos h0] at h
      unfold tokenTransfer at h
      by_cases hle : payout ≤ st0.vaultBal
      · simp only [if_pos hle] at h
        injection h with h2
        subst h2
        exact Or.inr ⟨h0, hle, rfl⟩
      · simp only [if_neg hle] at h
        exact Except.noConfusion h
    · rw [if_neg h0] at h
      injection h with h2
      subst h2
      exact Or.inl ⟨Nat.eq_zero_of_not_pos h0, rfl⟩

/-- Inversion of a failing `claim`. -/
theorem claim_error_elim {st0 : LocalState} {u : Nat} {e : ProgramError}
    (h : claim st0 u = .error e) :
    claim_payout st0.market st0.position u = .error e ∨
    ∃ payout, claim_payout st0.market st0.position u = .ok payout ∧
      0 < payout ∧ st0.vaultBal < payout ∧ e = .transferFailed := by
  unfold claim at h
  cases hp : claim_payout st0.market st0.position u with
  | error e2 =>
    simp only [hp] at h
    injection h with h2
    subst h2
    exact Or.inl rfl
  | ok payout =>
    simp only [hp] at h
    by_cases h0 : payout > 0
    · rw [if_pos h0] at h
      unfold tokenTransfer at h
      by_cases hle : payout ≤ st0.vaultBal
      · simp only [if_pos hle] at h
        exact Except.noConfusion h
      · simp only [if_neg hle] at h
        injection h with h2
        exact Or.inr ⟨payout, rfl, h0, not_le.mp hle, h2.symm⟩
    · rw [if_neg h0] at h
      exact Except.noConfusion h

/-- A committed `claim` never increases the vault balance. -/
theorem applyOp_claim_vaultBal_le (w : World) (u : Nat) :
    (applyOp w (.claimOp u)).vaultBal ≤ w.vaultBal := by
  simp only [applyOp]
  cases hc : claim (localStateOf w u) u with
  | error e => exact le_refl _
  | ok st =>
    obtain ⟨p, hp, hcase⟩ := claim_ok_elim hc
    rcases hcase with ⟨-, rfl⟩ | ⟨-, -, rfl⟩
    · exact le_refl _
    · exact Nat.sub_le _ _

theorem applyOps_claims_market (us : List Nat) (w : World) :
    (applyOps w (us.map Op.claimOp)).market = w.market := by
  induction us generalizing w with
  | nil => rfl
  | cons u t ih =>
    show (applyOps (applyOp w (.claimOp u)) (t.map Op.claimOp)).market
      = w.market
    rw [ih, applyOp_claim_market]

theorem applyOps_claims_vault_le (us : List Nat) (w : World) :
    (applyOps w (us.map Op.claimOp)).vaultBal ≤ w.vaultBal := by
  induction us generalizing w with
  | nil => exact le_refl _
  | cons u t ih =>
    exact le_trans (ih (applyOp w (.claimOp u))) (applyOp_claim_vaultBal_le w u)

/-- Committed `withdraw_creator_fee` by the creator on a resolved,
not-yet-withdrawn market with a sufficiently funded vault. -/
theorem applyOp_withdraw_eval (w : World)
    (hres : w.market.status = .Resolved)
    (hwd : w.market.creator_fee_withdrawn = false)
    (htot : totalStaked w.market < U64) (hfb : w.market.fee_bps ≤ 10000)
    (hvb : feeOf w.market ≤ w.vaultBal) :
    applyOp w (.withdrawFee w.market.creator) =
      { w with market := { w.market with creator_fee_withdrawn := true },
               vaultBal := w.vaultBal - feeOf w.market,
               balances := Function.update w.balances w.market.creator
                 (w.balances w.market.creator + feeOf w.market) } := by
  simp only [applyOp,
    withdraw_ok_of w.market w.vaultBal (w.balances w.market.creator)
      hres hwd htot hfb hvb]

/-- One `claim` and the creator's fee withdrawal commute, as long as the
vault still covers the fee after the claim. -/
theorem claim_withdraw_comm (w : World) (u : Nat)
    (hres : w.market.status = .Resolved)
    (hwd : w.market.creator_fee_withdrawn = false)
    (htot : totalStaked w.market < U64)
    (hfb : w.market.fee_bps ≤ 10000)
    (hfee : feeOf w.market ≤ (applyOp w (.claimOp u)).vaultBal) :
    applyOp (applyOp w (.claimOp u)) (.withdrawFee w.market.creator)
      = applyOp (applyOp w (.withdrawFee w.market.creator)) (.claimOp u) := by
  have hvw : feeOf w.market ≤ w.vaultBal :=
    le_trans hfee (applyOp_claim_vaultBal_le w u)
  have hTw := applyOp_withdraw_eval w hres hwd htot hfb hvw
  cases hc : claim (localStateOf w u) u with
  | error e =>
    have hw1 : applyOp w (.claimOp u) = w := applyOp_claim_error w u e hc
    have hcT : ∃ e2, claim (localStateOf
        (applyOp w (.withdrawFee w.market.creator)) u) u = .error e2 := by
      rw [hTw]
      rcases claim_error_elim hc with hpe | ⟨p, hp, h0, hgt, -⟩
      · refine ⟨e, claim_error_of ?_⟩
        show claim_payout { w.market with creator_fee_withdrawn := true }
          (w.positions u) u = .error e
        rw [claim_payout_cfw]
        exact hpe
      · have hgt' : w.vaultBal < p := hgt
        refine ⟨.transferFailed, claim_transfer_fail ?_ h0 ?_⟩
        · show claim_payout { w.market with creator_fee_withdrawn := true }
            (w.positions u) u = .ok p
          rw [claim_payout_cfw]
          exact hp
        · show w.vaultBal - feeOf w.market < p
          exact lt_of_le_of_lt (Nat.sub_le _ _) hgt'
    obtain ⟨e2, hcT⟩ := hcT
    have hT1 := applyOp_claim_error _ u e2 hcT
    rw [hw1, hT1]
  | ok st =>
    obtain ⟨p, hp, hshape⟩ := claim_ok_elim hc
    have hw1 : applyOp w (.claimOp u) =
        { w with positions := Function.update w.positions u st.position,
                 vaultBal := st.vaultBal,
                 balances := Function.update w.balances u st.userBal } := by
      simp only [applyOp, hc]
    have hmkt := applyOp_claim_market w u
    have hL0 := applyOp_withdraw_eval (applyOp w (.claimOp u))
        (by rw [hmkt]; exact hres) (by rw [hmkt]; exact hwd)
        (by rw [hmkt]; exact htot) (by rw [hmkt]; exact hfb)
        (by rw [hmkt]; exact hfee)
    rw [hmkt] at hL0
    rcases hshape with ⟨hp0, hst⟩ | ⟨h0, hle, hst⟩
    · -- zero payout: the claim moves no tokens in either order
      subst hp0
      subst hst
      have hpT : claim_payout { w.market with creator_fee_withdrawn := true }
          (w.positions u) u = .ok 0 := by
        rw [claim_payout_cfw]
        exact hp
      have hR : applyOp (applyOp w (.withdrawFee w.market.creator)) (.claimOp u)
          = { market := { w.market with creator_fee_withdrawn := true },
              positions := Function.update w.positions u
                { w.positions u with claimed := true },
              vaultBal := w.vaultBal - feeOf w.market,
              balances := Function.update
                (Function.update w.balances w.market.creator
                  (w.balances w.market.creator + feeOf w.market)) u
                (Function.update w.balances w.market.creator
                  (w.balances w.market.creator + feeOf w.market) u) } := by
        rw [hTw]
        have hcT := @claim_ok_zero
            (⟨{ w.market with creator_fee_withdrawn := true }, w.positions u,
              w.vaultBal - feeOf w.market,
              Function.update w.balances w.market.creator
                (w.balances w.market.creator + feeOf w.market) u⟩ : LocalState)
            u hpT
        simp only [applyOp, localStateOf, hcT]
      rw [hL0, hw1, hR]
      simp [localStateOf, Function.update_eq_self]
    · -- positive payout
      subst hst
      have hfee1 : feeOf w.market ≤ w.vaultBal - p := by
        rw [hw1] at hfee
        exact hfee
      have hle' : p ≤ w.vaultBal := hle
      have hple : p ≤ w.vaultBal - feeOf w.market := by omega
      have hpT : claim_payout { w.market with creator_fee_withdrawn := true }
          (w.positions u) u = .ok p := by
        rw [claim_payout_cfw]
        exact hp
      have hR : applyOp (applyOp w (.withdrawFee w.market.creator)) (.claimOp u)
          = { market := { w.market with creator_fee_withdrawn := true },
              positions := Function.update w.positions u
                { w.positions u with claimed := true },
              vaultBal := w.vaultBal - feeOf w.market - p,
              balances := Function.update
                (Function.update w.balances w.market.creator
                  (w.balances w.market.creator + feeOf w.market)) u
                (Function.update w.balances w.market.creator
                  (w.balances w.market.creator + feeOf w.market) u + p) } := by
        rw [hTw]
        have hcT := @claim_ok_pos
            (⟨{ w.market with creator_fee_withdrawn := true }, w.positions u,
              w.vaultBal - feeOf w.market,
              Function.update w.balances w.market.creator
                (w.balances w.market.creator + feeOf w.market) u⟩ : LocalState)
            u p hpT h0 hple
        simp only [applyOp, localStateOf, hcT]
      rw [hL0, hw1, hR]
      simp only [localStateOf, World.mk.injEq]
      refine ⟨trivial, trivial, ?_, ?_⟩
      · exact Nat.sub_right_comm _ _ _
      by_cases huc : u = w.market.creator
      · rw [← huc]
        rw [Function.update_idem, Function.update_idem, Function.update_same,
          Function.update_same]
        have harith : w.balances u + p + feeOf w.market
            = w.balances u + feeOf w.market + p := by omega
        rw [harith]
      · have hcu : w.market.creator ≠ u := fun h => huc h.symm
        rw [Function.update_noteq hcu, Function.update_noteq huc]
        exact Function.update_comm huc _ _ _

/-- C5: the creator fee is a function of the frozen aggregates
`staked_a`, `staked_b`, `fee_bps` alone, so fee withdrawal is
order-independent with respect to individual claims: on a resolved market
whose vault still covers the fee after the claims, running
`withdraw_creator_fee` after any sequence of `claim`s yields exactly the
same world — same fee transferred, same final vault balance — as running it
before them. -/
theorem withdraw_fee_claim_order_independent (w : World) (us : List Nat)
    (hres : w.market.status = .Resolved)
    (hwd : w.market.creator_fee_withdrawn = false)
    (htot : totalStaked w.market < U64)
    (hfb : w.market.fee_bps ≤ 10000)
    (hfee : feeOf w.market ≤ (applyOps w (us.map Op.claimOp)).vaultBal) :
    applyOp (applyOps w (us.map Op.claimOp)) (.withdrawFee w.market.creator)
      = applyOps (applyOp w (.withdrawFee w.market.creator))
          (us.map Op.claimOp) := by
  induction us generalizing w with
  | nil => rfl
  | cons u t ih =>
    have hmkt := applyOp_claim_market w u
    have hfee1 : feeOf (applyOp w (.claimOp u)).market
        ≤ (applyOps (applyOp w (.claimOp u)) (t.map Op.claimOp)).vaultBal := by
      rw [hmkt]
      exact hfee
    have ihw := ih (applyOp w (.claimOp u))
        (by rw [hmkt]; exact hres) (by rw [hmkt]; exact hwd)
        (by rw [hmkt]; exact htot) (by rw [hmkt]; exact hfb) hfee1
    rw [hmkt] at ihw
    have hfeeu : feeOf w.market ≤ (applyOp w (.claimOp u)).vaultBal :=
      le_trans hfee (applyOps_claims_vault_le t (applyOp w (.claimOp u)))
    have hcomm := claim_withdraw_comm w u hres hwd htot hfb hfeeu
    show applyOp (applyOps (applyOp w (.claimOp u)) (t.map Op.claimOp))
        (.withdrawFee w.market.creator)
      = applyOps (applyOp w (.withdrawFee w.market.creator))
          (Op.claimOp u :: t.map Op.claimOp)
    rw [ihw, hcomm]
    rfl

/-- The §8 worked-example world: resolved to `A`, sole A-position of 600
held by user 2, vault fully funded with the 1000 staked tokens. -/
def exWorld : World := ⟨exMarket, fun _ => exPosition, 1000, fun _ => 0⟩

/-- Witness for C5 on the worked example: withdrawing the creator fee after
user 2's claim produces the same world as withdrawing it first. -/
theorem withdraw_fee_claim_order_independent_witness :
    (exWorld.market.status = .Resolved ∧
      exWorld.market.creator_fee_withdrawn = false ∧
      totalStaked exWorld.market < U64 ∧ exWorld.market.fee_bps ≤ 10000 ∧
      feeOf exWorld.market
        ≤ (applyOps exWorld ([2].map Op.claimOp)).vaultBal) ∧
    applyOp (applyOps exWorld ([2].map Op.claimOp))
        (.withdrawFee exWorld.market.creator)
      = applyOps (applyOp exWorld (.withdrawFee exWorld.market.creator))
          ([2].map Op.claimOp) :=
  ⟨⟨rfl, rfl, by decide, by decide, by decide⟩,
    withdraw_fee_claim_order_independent exWorld [2] rfl rfl (by decide)
      (by decide) (by decide)⟩

end FriendsBets
